import Mathlib

/-!
Verification development for a collaborative screenplay editor.

Two subsystems are embedded here, straight from the source:

* the concurrent pagination engine of the editor component
  (`updatePages`, `fallbackUpdatePages`, `calculateElementHeight`, and the
  pagination web-worker body built by `createPaginationWorker`), and
* the session relay (`pages/api/socket.js`: `join-document`, `yjs-update`,
  `awareness-update` and `disconnect` handlers) together with the outbound
  throttle of the sync client (`ySocketProvider.setupYjsListeners`).

JavaScript numbers are embedded as exact rationals (`ℚ`); the float literals
`1.5` and `1.2` of the source are read as the rationals `3/2` and `6/5`.
All properties proved below are insensitive to this reading.
-/

namespace Mvp

set_option maxRecDepth 100000

/-- One screenplay element, as the editor extracts it from the document:
`doc.descendants` pushes `{type: node.attrs.type, content: node.textContent,
dual: node.attrs.dual, pos}` for every `screenplay_element` node.  `pos` is the
source position, used only to preserve ordering. -/
structure Element where
  type : String
  content : String
  dual : Bool
  pos : ℕ
deriving DecidableEq

/-- The fixed page height budget, `PAGE_HEIGHT = 1122` in the source. -/
def PAGE_HEIGHT : ℚ := 1122

/-- `jsCeilDiv a b` embeds `Math.ceil(a / b)` for natural `a` and positive
natural `b` (exact for every size that occurs here). -/
def jsCeilDiv (a b : ℕ) : ℕ := (a + b - 1) / b

/-- The layout heuristic as it appears inside the pagination worker source
string (`createPaginationWorker`): `contentLength` is
`element.content ? element.content.length : 0`, `linesNeeded` is
`Math.ceil(contentLength / 60)`, the multiplier is `1.5` for
`scene_heading`, `1.2` for `character` and `1` otherwise, and the height is
`24 * linesNeeded * multiplier + 12`. -/
def calculateElementHeightWorker (element : Element) : ℚ :=
  let baseHeight : ℚ := 24
  let contentLength : ℕ := if element.content = "" then 0 else element.content.length
  let linesNeeded : ℕ := jsCeilDiv contentLength 60
  let multiplier : ℚ :=
    if element.type = "scene_heading" then 3 / 2
    else if element.type = "character" then 6 / 5
    else 1
  baseHeight * (linesNeeded : ℚ) * multiplier + 12

/-- The layout heuristic as it appears in the editor component
(`calculateElementHeight(node)`), used by the sequential fallback path; it
reads `node.textContent.length` directly. -/
def calculateElementHeight (node : Element) : ℚ :=
  let baseHeight : ℚ := 24
  let contentLength : ℕ := node.content.length
  let linesNeeded : ℕ := jsCeilDiv contentLength 60
  let multiplier : ℚ :=
    if node.type = "scene_heading" then 3 / 2
    else if node.type = "character" then 6 / 5
    else 1
  baseHeight * (linesNeeded : ℚ) * multiplier + 12

/-- The layout formula exactly as the specification words it:
`height = 24 × ceil(contentLength / 60) × multiplier + 12` with multiplier
`1.5` for `scene_heading`, `1.2` for `character`, `1` for every other type. -/
def heightSpecFormula (e : Element) : ℚ :=
  24 * (jsCeilDiv e.content.length 60 : ℚ) *
    (if e.type = "scene_heading" then 3 / 2
     else if e.type = "character" then 6 / 5
     else 1) + 12

theorem calculateElementHeightWorker_eq_spec (e : Element) :
    calculateElementHeightWorker e = heightSpecFormula e := by
  unfold calculateElementHeightWorker heightSpecFormula
  by_cases h : e.content = ""
  · simp [h, jsCeilDiv]
  · simp [h]

theorem calculateElementHeight_eq_spec (e : Element) :
    calculateElementHeight e = heightSpecFormula e := by
  unfold calculateElementHeight heightSpecFormula
  rfl

/-- Every element height is at least the fixed inter-element spacing `12`;
in particular all heights are positive. -/
theorem twelve_le_height (e : Element) : 12 ≤ heightSpecFormula e := by
  unfold heightSpecFormula
  have h0 : (0 : ℚ) ≤ (jsCeilDiv e.content.length 60 : ℚ) := by positivity
  have h1 : (0 : ℚ) ≤
      (if e.type = "scene_heading" then (3 : ℚ) / 2
       else if e.type = "character" then 6 / 5 else 1) := by
    split <;> norm_num
    split <;> norm_num
  nlinarith

/-- C8: in both the worker and the fallback path, the computed height is
`24 × ceil(contentLength / 60) × multiplier + 12`, with multiplier `1.5` for
`scene_heading`, `1.2` for `character` and `1` for every other type. -/
theorem heightHeuristicFormula :
    ∀ e : Element,
      calculateElementHeightWorker e = heightSpecFormula e ∧
      calculateElementHeight e = heightSpecFormula e ∧
      calculateElementHeightWorker e = calculateElementHeight e := by
  intro e
  refine ⟨calculateElementHeightWorker_eq_spec e, calculateElementHeight_eq_spec e, ?_⟩
  rw [calculateElementHeightWorker_eq_spec e, calculateElementHeight_eq_spec e]

/-- One page as a pagination worker reports it: the worker's self-computed
approximate `pageIndex` together with the page's elements. -/
structure WPage where
  pageIndex : ℕ
  elements : List Element
deriving DecidableEq

/-- The body of the pagination worker's `onmessage` loop
(`createPaginationWorker`): walk the chunk's elements in order, close the
current page when adding the next element would exceed `pageHeight` and the
page is non-empty, and stamp each emitted page with the running `pageIndex`.
Arguments mirror the worker's mutable state: remaining elements,
`currentPage`, `currentPageHeight`, `pageIndex`. -/
def paginationWorkerLoop (pageHeight : ℚ) :
    List Element → List Element → ℚ → ℕ → List WPage
  | [], currentPage, _, pageIndex =>
    if currentPage = [] then [] else [⟨pageIndex, currentPage⟩]
  | e :: rest, currentPage, currentPageHeight, pageIndex =>
    let elementHeight := calculateElementHeightWorker e
    if currentPageHeight + elementHeight > pageHeight ∧ currentPage ≠ [] then
      ⟨pageIndex, currentPage⟩ ::
        paginationWorkerLoop pageHeight rest [e] elementHeight (pageIndex + 1)
    else
      paginationWorkerLoop pageHeight rest (currentPage ++ [e])
        (currentPageHeight + elementHeight) pageIndex

/-- A successful pagination worker run on one chunk: the worker starts with an
empty page, zero height, and `pageIndex = Math.floor(startIndex / 15)`
(the approximate page derived from the element index). -/
def paginationWorkerRun (elements : List Element) (startIndex : ℕ)
    (pageHeight : ℚ) : List WPage :=
  paginationWorkerLoop pageHeight elements [] 0 (startIndex / 15)

/-- The sequential fallback loop of `fallbackUpdatePages`: same greedy rule as
the worker, with the fixed `PAGE_HEIGHT` budget and the component-side
`calculateElementHeight`; pages carry no index. -/
def fallbackLoop : List Element → List Element → ℚ → List (List Element)
  | [], currentPage, _ => if currentPage = [] then [] else [currentPage]
  | e :: rest, currentPage, currentPageHeight =>
    let elementHeight := calculateElementHeight e
    if currentPageHeight + elementHeight > PAGE_HEIGHT ∧ currentPage ≠ [] then
      currentPage :: fallbackLoop rest [e] elementHeight
    else
      fallbackLoop rest (currentPage ++ [e]) (currentPageHeight + elementHeight)

/-- `fallbackUpdatePages`, applied to the ordered list of screenplay elements
extracted from the document. -/
def fallbackUpdatePages (elements : List Element) : List (List Element) :=
  fallbackLoop elements [] 0

/-- The chunk size used by `updatePages`:
`Math.ceil(allElements.length / numWorkers)`. -/
def chunkSizeOf (elements : List Element) (numWorkers : ℕ) : ℕ :=
  jsCeilDiv elements.length numWorkers

/-- The chunks `updatePages` dispatches: for each worker `i`,
`startIndex = i * chunkSize` and the slice
`allElements.slice(startIndex, min(startIndex + chunkSize, length))`;
empty chunks are skipped (`if (chunk.length === 0) continue`). -/
def chunkSpecs (elements : List Element) (numWorkers : ℕ) :
    List (ℕ × List Element) :=
  (List.range numWorkers).filterMap fun i =>
    let startIndex := i * chunkSizeOf elements numWorkers
    let chunk := (elements.drop startIndex).take (chunkSizeOf elements numWorkers)
    if chunk = [] then none else some (startIndex, chunk)

/-- The comparator of the merge step, `(a, b) => a.pageIndex - b.pageIndex`:
ascending order on the workers' self-reported page indices. -/
def leIdx (a b : WPage) : Prop := a.pageIndex ≤ b.pageIndex

instance : DecidableRel leIdx := fun a b => Nat.decLe a.pageIndex b.pageIndex

instance : IsTotal WPage leIdx := ⟨fun a b => Nat.le_total a.pageIndex b.pageIndex⟩

instance : IsTrans WPage leIdx := ⟨fun _ _ _ h₁ h₂ => Nat.le_trans h₁ h₂⟩

/-- The successful chunk results, concatenated in dispatch order, as
`results.forEach` builds `allPages` from the settled promises: chunk `j`'s
pages are included exactly when its promise fulfilled (`ok j = true`). -/
def successPages (elements : List Element) (numWorkers : ℕ) (ok : ℕ → Bool) :
    List WPage :=
  ((chunkSpecs elements numWorkers).enum.filterMap fun p =>
    if ok p.1 then some (paginationWorkerRun p.2.2 p.2.1 PAGE_HEIGHT) else none).flatten

/-- The merge step of `updatePages`:
`allPages.sort((a, b) => a.pageIndex - b.pageIndex)`.  JavaScript's
`Array.prototype.sort` is stable, embedded as a stable insertion sort on the
`pageIndex` key. -/
def mergedWPages (elements : List Element) (numWorkers : ℕ) (ok : ℕ → Bool) :
    List WPage :=
  List.insertionSort leIdx (successPages elements numWorkers ok)

/-- `updatePages` with an explicit per-chunk success pattern `ok` (the outcome
of `Promise.allSettled`): if the element list is empty the page state is set
to `[]`; otherwise the successful chunks' pages are merged, sorted by
`pageIndex`, and converted to the final page format (each page becomes its
list of elements). -/
def updatePagesSettled (elements : List Element) (numWorkers : ℕ)
    (ok : ℕ → Bool) : List (List Element) :=
  if elements = [] then []
  else (mergedWPages elements numWorkers ok).map WPage.elements

/-- `updatePages` on the parallel path when every dispatched chunk completes
successfully. -/
def updatePages (elements : List Element) (numWorkers : ℕ) :
    List (List Element) :=
  updatePagesSettled elements numWorkers fun _ => true

/-- Modelled from the spec: the merge the specification describes instead,
"successful chunk results are concatenated and globally reordered by chunk
start index (not by the worker's self-reported page index)". -/
def updatePagesByStartIndexSpec (elements : List Element) (numWorkers : ℕ) :
    List (List Element) :=
  if elements = [] then []
  else
    ((List.insertionSort (fun a b : ℕ × List WPage => a.1 ≤ b.1)
        ((chunkSpecs elements numWorkers).map fun p =>
          (p.1, paginationWorkerRun p.2 p.1 PAGE_HEIGHT))).map
      (fun p => p.2.map WPage.elements)).flatten

/-- The two copies of the layout heuristic agree (helper shared by the
pagination lemmas). -/
theorem heightWorker_eq_height (e : Element) :
    calculateElementHeightWorker e = calculateElementHeight e := by
  rw [calculateElementHeightWorker_eq_spec e, calculateElementHeight_eq_spec e]

theorem height_nonneg (e : Element) : 0 ≤ calculateElementHeightWorker e := by
  have h := twelve_le_height e
  rw [calculateElementHeightWorker_eq_spec e]
  linarith

/-- The elements of the pages emitted by the worker loop are exactly the
accumulated current page followed by the remaining input, in order: the loop
drops, duplicates, and reorders nothing. -/
theorem workerLoop_flatten (B : ℚ) :
    ∀ (es cur : List Element) (h : ℚ) (idx : ℕ),
      ((paginationWorkerLoop B es cur h idx).map WPage.elements).flatten = cur ++ es := by
  intro es
  induction es with
  | nil =>
    intro cur h idx
    by_cases hc : cur = [] <;> simp [paginationWorkerLoop, hc]
  | cons e rest ih =>
    intro cur h idx
    simp only [paginationWorkerLoop]
    split
    · simp [ih]
    · simp [ih]

/-- Same statement for the sequential fallback loop. -/
theorem fallbackLoop_flatten :
    ∀ (es cur : List Element) (h : ℚ),
      (fallbackLoop es cur h).flatten = cur ++ es := by
  intro es
  induction es with
  | nil =>
    intro cur h
    by_cases hc : cur = [] <;> simp [fallbackLoop, hc]
  | cons e rest ih =>
    intro cur h
    simp only [fallbackLoop]
    split
    · simp [ih]
    · simp [ih]

/-- At the `PAGE_HEIGHT` budget, the worker loop computes exactly the
fallback loop's pages (forgetting the page indices): both run the identical
greedy procedure with equal element heights. -/
theorem workerLoop_eq_fallbackLoop :
    ∀ (es cur : List Element) (h : ℚ) (idx : ℕ),
      (paginationWorkerLoop PAGE_HEIGHT es cur h idx).map WPage.elements =
        fallbackLoop es cur h := by
  intro es
  induction es with
  | nil =>
    intro cur h idx
    by_cases hc : cur = [] <;> simp [paginationWorkerLoop, fallbackLoop, hc]
  | cons e rest ih =>
    intro cur h idx
    simp only [paginationWorkerLoop, fallbackLoop, heightWorker_eq_height]
    split
    · simp [ih, heightWorker_eq_height]
    · simp [ih, heightWorker_eq_height]

/-- Every page the worker loop emits carries a page index at least the
starting index. -/
theorem workerLoop_le_pageIndex (B : ℚ) :
    ∀ (es cur : List Element) (h : ℚ) (idx : ℕ) (wp : WPage),
      wp ∈ paginationWorkerLoop B es cur h idx → idx ≤ wp.pageIndex := by
  intro es
  induction es with
  | nil =>
    intro cur h idx wp hm
    by_cases hc : cur = [] <;> simp [paginationWorkerLoop, hc] at hm
    subst hm; exact Nat.le_refl _
  | cons e rest ih =>
    intro cur h idx wp hm
    simp only [paginationWorkerLoop] at hm
    split at hm
    · rcases List.mem_cons.mp hm with h1 | h2
      · subst h1; exact Nat.le_refl _
      · exact Nat.le_trans (Nat.le_succ idx) (ih _ _ _ _ h2)
    · exact ih _ _ _ _ hm

/-- The worker reports its pages with nondecreasing page indices. -/
theorem workerLoop_pairwise (B : ℚ) :
    ∀ (es cur : List Element) (h : ℚ) (idx : ℕ),
      (paginationWorkerLoop B es cur h idx).Pairwise leIdx := by
  intro es
  induction es with
  | nil =>
    intro cur h idx
    by_cases hc : cur = [] <;> simp [paginationWorkerLoop, hc]
  | cons e rest ih =>
    intro cur h idx
    simp only [paginationWorkerLoop]
    split
    · refine List.pairwise_cons.mpr ⟨fun wp hm => ?_, ih _ _ _⟩
      exact Nat.le_trans (Nat.le_succ idx) (workerLoop_le_pageIndex B _ _ _ _ _ hm)
    · exact ih _ _ _

/-- Permuting a list of lists permutes its concatenation. -/
theorem perm_flatten_of_perm {α : Type} {l₁ l₂ : List (List α)}
    (h : l₁.Perm l₂) : l₁.flatten.Perm l₂.flatten := by
  induction h with
  | nil => exact List.Perm.refl _
  | cons x _ ih => simpa using ih.append_left x
  | swap x y l =>
    simp only [List.flatten_cons]
    rw [← List.append_assoc, ← List.append_assoc]
    exact (List.perm_append_comm).append_right _
  | trans _ _ ih₁ ih₂ => exact ih₁.trans ih₂

/-- Skipping empty chunks does not change the concatenation. -/
theorem flatten_filterMap_skip {α β : Type} [DecidableEq β] (l : List α)
    (g : α → List β) :
    (l.filterMap fun a => if g a = [] then none else some (g a)).flatten =
      (l.map g).flatten := by
  induction l with
  | nil => rfl
  | cons a t ih =>
    by_cases h : g a = [] <;> simp [List.filterMap_cons, h, ih]

/-- Slicing a list into `W` count-based chunks and concatenating them gives
back the list, provided the chunks cover it. -/
theorem flatten_take_drop {α : Type} :
    ∀ (W : ℕ) (l : List α) (cs : ℕ), l.length ≤ W * cs →
      ((List.range W).map fun i => (l.drop (i * cs)).take cs).flatten = l := by
  intro W
  induction W with
  | zero =>
    intro l cs h
    simp only [Nat.zero_mul, Nat.le_zero, List.length_eq_zero] at h
    simp [h]
  | succ W ih =>
    intro l cs h
    rw [List.range_succ_eq_map]
    simp only [List.map_cons, List.map_map, List.flatten_cons, Nat.zero_mul,
      List.drop_zero]
    have hcomp : ∀ i : ℕ,
        ((fun i => (l.drop (i * cs)).take cs) ∘ Nat.succ) i =
          (((l.drop cs).drop (i * cs)).take cs) := by
      intro i
      simp only [Function.comp_apply, List.drop_drop]
      congr 2
      rw [Nat.succ_mul]
      ring
    rw [List.map_congr_left fun i _ => hcomp i]
    have h' : l.length ≤ W * cs + cs := by
      have : (W + 1) * cs = W * cs + cs := by ring
      omega
    rw [ih (l.drop cs) cs (by simp; omega)]
    exact List.take_append_drop cs l

/-- The chunk size covers the whole element list. -/
theorem length_le_mul_chunkSize (elements : List Element) (numWorkers : ℕ)
    (hW : 1 ≤ numWorkers) :
    elements.length ≤ numWorkers * chunkSizeOf elements numWorkers := by
  unfold chunkSizeOf jsCeilDiv
  have h1 := Nat.div_add_mod (elements.length + numWorkers - 1) numWorkers
  have h2 : (elements.length + numWorkers - 1) % numWorkers < numWorkers :=
    Nat.mod_lt _ (by omega)
  omega

/-- Concatenating the dispatched chunks, in dispatch order, restores the
input element list. -/
theorem chunkSpecs_snd_flatten (elements : List Element) (numWorkers : ℕ)
    (hW : 1 ≤ numWorkers) :
    ((chunkSpecs elements numWorkers).map Prod.snd).flatten = elements := by
  unfold chunkSpecs
  rw [List.map_filterMap]
  have heq : ∀ i : ℕ,
      (Option.map Prod.snd
        (if (elements.drop (i * chunkSizeOf elements numWorkers)).take
              (chunkSizeOf elements numWorkers) = [] then none
         else some (i * chunkSizeOf elements numWorkers,
           (elements.drop (i * chunkSizeOf elements numWorkers)).take
             (chunkSizeOf elements numWorkers)))) =
      (if (elements.drop (i * chunkSizeOf elements numWorkers)).take
            (chunkSizeOf elements numWorkers) = [] then none
       else some ((elements.drop (i * chunkSizeOf elements numWorkers)).take
         (chunkSizeOf elements numWorkers))) := by
    intro i
    split <;> rfl
  simp only [heq]
  rw [flatten_filterMap_skip]
  exact flatten_take_drop numWorkers elements _
    (length_le_mul_chunkSize elements numWorkers hW)

/-- With every chunk succeeding, the concatenated results are exactly the
worker outputs of the dispatched chunks, in dispatch order. -/
theorem successPages_true (elements : List Element) (numWorkers : ℕ) :
    successPages elements numWorkers (fun _ => true) =
      ((chunkSpecs elements numWorkers).map fun p =>
        paginationWorkerRun p.2 p.1 PAGE_HEIGHT).flatten := by
  unfold successPages
  congr 1
  have h1 : (fun p : ℕ × (ℕ × List Element) =>
      if (fun _ => true) p.1 then some (paginationWorkerRun p.2.2 p.2.1 PAGE_HEIGHT)
      else none) =
      some ∘ ((fun q : ℕ × List Element => paginationWorkerRun q.2 q.1 PAGE_HEIGHT)
        ∘ Prod.snd) := by
    funext p
    rfl
  rw [h1, List.filterMap_eq_map, ← List.map_map, List.enum_map_snd]

/-- The elements of the chunks' worker pages, concatenated, are the chunks'
elements, concatenated. -/
theorem chunkPages_flatten (chunks : List (ℕ × List Element)) :
    (((chunks.map fun p => paginationWorkerRun p.2 p.1 PAGE_HEIGHT).flatten).map
        WPage.elements).flatten = (chunks.map Prod.snd).flatten := by
  induction chunks with
  | nil => rfl
  | cons c t ih =>
    simp only [List.map_cons, List.flatten_cons, List.map_append,
      List.flatten_append, ih]
    congr 1
    simpa [paginationWorkerRun] using
      workerLoop_flatten PAGE_HEIGHT c.2 [] 0 (c.1 / 15)

/-- Invariant of the worker loop: starting from a current page whose height is
the sum of its element heights and which already satisfies the
one-oversized-element-per-page property, every emitted page satisfies it. -/
theorem workerLoop_oversized (B : ℚ) :
    ∀ (es cur : List Element) (h : ℚ) (idx : ℕ),
      h = (cur.map calculateElementHeightWorker).sum →
      (∀ e ∈ cur, B < calculateElementHeightWorker e → cur = [e]) →
      ∀ wp ∈ paginationWorkerLoop B es cur h idx,
        ∀ e ∈ wp.elements, B < calculateElementHeightWorker e →
          wp.elements = [e] := by
  intro es
  induction es with
  | nil =>
    intro cur h idx hsum hq wp hm
    by_cases hc : cur = [] <;> simp [paginationWorkerLoop, hc] at hm
    subst hm
    exact hq
  | cons e rest ih =>
    intro cur h idx hsum hq wp hm
    simp only [paginationWorkerLoop] at hm
    split at hm
    · rcases List.mem_cons.mp hm with h1 | h2
      · subst h1
        exact hq
      · refine ih [e] _ _ (by simp) ?_ wp h2
        intro e' he' _
        simp only [List.mem_singleton] at he'
        subst he'
        rfl
    · rename_i hcond
      refine ih (cur ++ [e]) _ idx (by simp [hsum]) ?_ wp hm
      by_cases hc : cur = []
      · subst hc
        intro e' he' _
        simp only [List.nil_append, List.mem_singleton] at he'
        subst he'
        rfl
      · intro e' he' hbig
        exfalso
        have hB : h + calculateElementHeightWorker e ≤ B := by
          by_contra hgt
          push_neg at hgt
          exact hcond ⟨hgt, hc⟩
        have hmem : calculateElementHeightWorker e' ∈
            ((cur ++ [e]).map calculateElementHeightWorker) :=
          List.mem_map_of_mem _ he'
        have hnn : ∀ x ∈ ((cur ++ [e]).map calculateElementHeightWorker), (0:ℚ) ≤ x := by
          intro x hx
          rcases List.mem_map.mp hx with ⟨y, _, rfl⟩
          exact height_nonneg y
        have hle' : calculateElementHeightWorker e' ≤
            ((cur ++ [e]).map calculateElementHeightWorker).sum :=
          List.single_le_sum hnn _ hmem
        have hsum' : ((cur ++ [e]).map calculateElementHeightWorker).sum =
            h + calculateElementHeightWorker e := by
          simp [hsum]
        rw [hsum'] at hle'
        linarith

/-- For a single chunk covering the whole list, the dispatched chunks are
exactly one chunk starting at index `0`. -/
theorem chunkSpecs_one (elements : List Element) (h : elements ≠ []) :
    chunkSpecs elements 1 = [(0, elements)] := by
  have hcs : chunkSizeOf elements 1 = elements.length := by
    unfold chunkSizeOf jsCeilDiv
    omega
  unfold chunkSpecs
  rw [hcs]
  have hr : List.range 1 = [0] := by decide
  rw [hr]
  simp [List.take_length, h]

/-- The parallel path run with a single worker (one chunk, `startIndex 0`)
computes exactly the fallback pagination. -/
theorem updatePages_one (elements : List Element) :
    updatePages elements 1 = fallbackUpdatePages elements := by
  by_cases h : elements = []
  · subst h
    simp [updatePages, updatePagesSettled, fallbackUpdatePages, fallbackLoop]
  · unfold updatePages updatePagesSettled
    rw [if_neg h]
    unfold mergedWPages
    rw [successPages_true, chunkSpecs_one elements h]
    simp only [List.map_cons, List.map_nil, List.flatten_cons, List.flatten_nil,
      List.append_nil]
    have hsorted : (paginationWorkerRun elements 0 PAGE_HEIGHT).Sorted leIdx :=
      workerLoop_pairwise PAGE_HEIGHT elements [] 0 _
    rw [List.Sorted.insertionSort_eq hsorted]
    unfold paginationWorkerRun fallbackUpdatePages
    exact workerLoop_eq_fallbackLoop elements [] 0 _

/-- Step equation: the fallback loop closes the current page. -/
theorem fallbackLoop_cons_break {e : Element} {rest cur : List Element} {h : ℚ}
    (hgt : h + calculateElementHeight e > PAGE_HEIGHT) (hne : cur ≠ []) :
    fallbackLoop (e :: rest) cur h =
      cur :: fallbackLoop rest [e] (calculateElementHeight e) := by
  rw [fallbackLoop, if_pos ⟨hgt, hne⟩]

/-- Step equation: the fallback loop extends the current page. -/
theorem fallbackLoop_cons_skip {e : Element} {rest cur : List Element} {h : ℚ}
    (hcond : ¬(h + calculateElementHeight e > PAGE_HEIGHT ∧ cur ≠ [])) :
    fallbackLoop (e :: rest) cur h =
      fallbackLoop rest (cur ++ [e]) (h + calculateElementHeight e) := by
  rw [fallbackLoop, if_neg hcond]

/-- Step equation: the fallback loop flushes the trailing page. -/
theorem fallbackLoop_nil_flush {cur : List Element} {h : ℚ} (hne : cur ≠ []) :
    fallbackLoop [] cur h = [cur] := by
  rw [fallbackLoop, if_neg hne]

/-- A scene heading of 901 characters: 16 lines, height
`24 * 16 * 1.5 + 12 = 588`; two of them exceed the `1122` budget. -/
def longE (i : ℕ) : Element := ⟨"scene_heading", String.mk (List.replicate 901 'A'), false, i⟩

/-- A one-character action element of height `24 * 1 * 1 + 12 = 36`. -/
def shortE (i : ℕ) : Element := ⟨"action", "b", false, i⟩

/-- An oversized scene heading: 1801 characters give 31 lines, height
`24 * 31 * 1.5 + 12 = 1128 > 1122`. -/
def bigE : Element := ⟨"scene_heading", String.mk (List.replicate 1801 'A'), false, 0⟩

/-- Four elements: the first chunk of a two-worker run paginates `longE 0`
and `longE 1` onto two pages (reported indices 0 and 1), while the second
chunk's single page also reports index 0. -/
def ex4 : List Element := [longE 0, longE 1, shortE 2, shortE 3]

theorem shortE_height (i : ℕ) : calculateElementHeight (shortE i) = 36 := by
  rw [calculateElementHeight_eq_spec]
  unfold heightSpecFormula shortE
  rw [if_neg (by decide : ¬("action" = "scene_heading")),
    if_neg (by decide : ¬("action" = "character"))]
  rw [show "b".length = 1 from rfl]
  norm_num [jsCeilDiv]

theorem bigE_content_length : bigE.content.length = 1801 := by
  have h : bigE.content = String.mk (List.replicate 1801 'A') := rfl
  rw [h, show ∀ l : List Char, (String.mk l).length = l.length from fun _ => rfl]
  exact List.length_replicate 1801 'A'

theorem bigE_height : calculateElementHeight bigE = 1128 := by
  rw [calculateElementHeight_eq_spec]
  unfold heightSpecFormula
  rw [bigE_content_length]
  have ht : bigE.type = "scene_heading" := rfl
  rw [ht]
  norm_num [jsCeilDiv]

theorem fallback_shortBig :
    fallbackUpdatePages [shortE 1, bigE] = [[shortE 1], [bigE]] := by
  have hgt : (0 : ℚ) + calculateElementHeight (shortE 1) + calculateElementHeight bigE >
      PAGE_HEIGHT := by
    rw [shortE_height, bigE_height]
    unfold PAGE_HEIGHT
    norm_num
  rw [fallbackUpdatePages, fallbackLoop_cons_skip (by simp),
    fallbackLoop_cons_break hgt (by simp), fallbackLoop_nil_flush (by simp)]
  simp

/-- C1 counterexample: with two workers and four elements the merged result
loses document order, although it keeps every element exactly once.  The
first chunk `[longE 0, longE 1]` needs two pages (reported indices 0 and 1)
while the second chunk's page reports index 0, so sorting by reported index
interleaves the chunks. -/
theorem updatePages_not_ordered_cex :
    (updatePages ex4 2).flatten ≠ ex4 ∧
      ((updatePages ex4 2).flatten : Multiset Element) = (ex4 : Multiset Element) := by
  constructor
  · with_unfolding_all decide
  · with_unfolding_all decide

/-- C1 (amended): for every worker count `W ≥ 1`, when every chunk succeeds
the merged result contains exactly the input elements, each exactly once (as
a multiset); the original document order is guaranteed when `W = 1`, but for
`W ≥ 2` the merge orders pages by the workers' approximate page indices and
may deviate from document order. -/
theorem updatePages_elements_preserved :
    ∀ (elements : List Element) (numWorkers : ℕ), 1 ≤ numWorkers →
      ((updatePages elements numWorkers).flatten : Multiset Element) =
        (elements : Multiset Element) ∧
      (numWorkers = 1 → (updatePages elements numWorkers).flatten = elements) := by
  intro elems W hW
  constructor
  · by_cases h : elems = []
    · subst h
      simp [updatePages, updatePagesSettled]
    · unfold updatePages updatePagesSettled
      rw [if_neg h]
      have hperm : (mergedWPages elems W fun _ => true).Perm
          (successPages elems W fun _ => true) :=
        List.perm_insertionSort leIdx _
      have h2 : ((mergedWPages elems W fun _ => true).map WPage.elements).flatten.Perm
          (((successPages elems W fun _ => true).map WPage.elements).flatten) :=
        perm_flatten_of_perm (hperm.map WPage.elements)
      have h3 : (((successPages elems W fun _ => true).map WPage.elements).flatten) =
          elems := by
        rw [successPages_true, chunkPages_flatten]
        exact chunkSpecs_snd_flatten elems W hW
      rw [Multiset.coe_eq_coe]
      rw [h3] at h2
      exact h2
  · intro h1
    subst h1
    rw [updatePages_one]
    simpa using fallbackLoop_flatten elems [] 0

theorem updatePages_elements_preserved_witness :
    1 ≤ 2 ∧
      (((updatePages [shortE 1, shortE 2, shortE 3] 2).flatten : Multiset Element) =
        ([shortE 1, shortE 2, shortE 3] : Multiset Element) ∧
      (2 = 1 → (updatePages [shortE 1, shortE 2, shortE 3] 2).flatten =
        [shortE 1, shortE 2, shortE 3])) :=
  ⟨by decide, updatePages_elements_preserved [shortE 1, shortE 2, shortE 3] 2 (by decide)⟩

/-- C2 counterexample: the merge step of `updatePages` sorts by the workers'
self-reported approximate page index, not by chunk start index; on `ex4`
with two workers the two merges disagree, the start-index merge restores
document order, and the shipped merge does not. -/
theorem merge_by_pageIndex_not_startIndex_cex :
    updatePages ex4 2 ≠ updatePagesByStartIndexSpec ex4 2 ∧
      (updatePagesByStartIndexSpec ex4 2).flatten = ex4 ∧
      (updatePages ex4 2).flatten ≠ ex4 := by
  refine ⟨?_, ?_, ?_⟩
  · with_unfolding_all decide
  · with_unfolding_all decide
  · with_unfolding_all decide

/-- C2 (amended): the merge concatenates the successful chunk results in
dispatch order and stably sorts them by the workers' self-reported
approximate page index: the merged list is a permutation of the concatenated
results whose reported page indices are nondecreasing (document order is not
restored in general). -/
theorem mergedWPages_sorted_perm :
    ∀ (elements : List Element) (numWorkers : ℕ) (ok : ℕ → Bool),
      ((mergedWPages elements numWorkers ok).map WPage.pageIndex).Sorted (· ≤ ·) ∧
      (mergedWPages elements numWorkers ok).Perm
        (successPages elements numWorkers ok) := by
  intro elems W ok
  refine ⟨?_, List.perm_insertionSort leIdx _⟩
  have hs : (mergedWPages elems W ok).Pairwise leIdx :=
    List.sorted_insertionSort leIdx _
  exact List.Pairwise.map _ (fun a b h => h) hs

/-- C3 counterexample: when zero chunks succeed, `updatePages` sets an empty
page list instead of invoking the fallback on the full input
(`Promise.allSettled` never rejects, so the `catch` that calls
`fallbackUpdatePages` is not reached). -/
theorem allChunksFail_empty_cex :
    updatePagesSettled [shortE 1, shortE 2] 2 (fun _ => false) = [] ∧
      fallbackUpdatePages [shortE 1, shortE 2] ≠ [] ∧
      updatePagesSettled [shortE 1, shortE 2] 2 (fun _ => false) ≠
        fallbackUpdatePages [shortE 1, shortE 2] := by
  refine ⟨?_, ?_, ?_⟩
  · with_unfolding_all decide
  · with_unfolding_all decide
  · with_unfolding_all decide

/-- No chunk result survives the merge when every chunk fails. -/
theorem successPages_false (elements : List Element) (numWorkers : ℕ) :
    successPages elements numWorkers (fun _ => false) = [] := by
  unfold successPages
  have h0 : List.filterMap
      (fun p : ℕ × ℕ × List Element =>
        if (fun _ : ℕ => false) p.1 then
          some (paginationWorkerRun p.2.2 p.2.1 PAGE_HEIGHT)
        else none)
      (chunkSpecs elements numWorkers).enum = [] :=
    List.filterMap_eq_nil_iff.mpr fun _ _ => rfl
  rw [h0]
  rfl

/-- C3 (amended): when every dispatched chunk fails, the merge still runs on
zero fulfilled results and the page state becomes the empty list — the
sequential fallback is not invoked (it is reached only when an exception is
thrown inside the parallel path's body). -/
theorem allChunksFail_empty :
    ∀ (elements : List Element) (numWorkers : ℕ),
      updatePagesSettled elements numWorkers (fun _ => false) = [] := by
  intro elems W
  unfold updatePagesSettled
  split
  · rfl
  · rw [mergedWPages, successPages_false]
    rfl

/-- C6: an element whose own computed height exceeds the page height budget
always occupies a page alone — it is neither split nor dropped — on the
sequential fallback path (budget `PAGE_HEIGHT`) and on the worker path (any
budget). -/
theorem oversizedElementOwnPage :
    (∀ (elements : List Element) (p : List Element) (e : Element),
        p ∈ fallbackUpdatePages elements → e ∈ p →
        PAGE_HEIGHT < calculateElementHeight e → p = [e]) ∧
    (∀ (elements : List Element) (startIndex : ℕ) (budget : ℚ) (wp : WPage)
        (e : Element),
        wp ∈ paginationWorkerRun elements startIndex budget → e ∈ wp.elements →
        budget < calculateElementHeightWorker e → wp.elements = [e]) := by
  constructor
  · intro elems p e hp he hbig
    have hp' : p ∈ (paginationWorkerLoop PAGE_HEIGHT elems [] 0 0).map WPage.elements := by
      rw [workerLoop_eq_fallbackLoop]
      exact hp
    rcases List.mem_map.mp hp' with ⟨wp, hwp, rfl⟩
    exact workerLoop_oversized PAGE_HEIGHT elems [] 0 0 (by simp) (by simp) wp hwp e he
      (by rwa [heightWorker_eq_height])
  · intro elems s budget wp e hwp he hbig
    exact workerLoop_oversized budget elems [] 0 _ (by simp) (by simp) wp hwp e he hbig

theorem oversizedElementOwnPage_witness :
    ([bigE] ∈ fallbackUpdatePages [shortE 1, bigE] ∧ bigE ∈ [bigE] ∧
      PAGE_HEIGHT < calculateElementHeight bigE ∧ ([bigE] : List Element) = [bigE]) ∧
    ((⟨0, [shortE 0]⟩ : WPage) ∈ paginationWorkerRun [shortE 0] 0 10 ∧
      shortE 0 ∈ (WPage.mk 0 [shortE 0]).elements ∧
      (10 : ℚ) < calculateElementHeightWorker (shortE 0) ∧
      (WPage.mk 0 [shortE 0]).elements = [shortE 0]) := by
  have m1 : [bigE] ∈ fallbackUpdatePages [shortE 1, bigE] := by
    rw [fallback_shortBig]
    simp
  have m2 : bigE ∈ [bigE] := by simp
  have h3 : PAGE_HEIGHT < calculateElementHeight bigE := by
    rw [bigE_height]
    unfold PAGE_HEIGHT
    norm_num
  have n1 : (⟨0, [shortE 0]⟩ : WPage) ∈ paginationWorkerRun [shortE 0] 0 10 := by
    with_unfolding_all decide
  have n2 : shortE 0 ∈ (WPage.mk 0 [shortE 0]).elements := by simp
  have n3 : (10 : ℚ) < calculateElementHeightWorker (shortE 0) := by
    with_unfolding_all decide
  exact ⟨⟨m1, m2, h3, oversizedElementOwnPage.1 [shortE 1, bigE] [bigE] bigE m1 m2 h3⟩,
    ⟨n1, n2, n3, oversizedElementOwnPage.2 [shortE 0] 0 10 ⟨0, [shortE 0]⟩ (shortE 0) n1 n2 n3⟩⟩

/-- C7: the parallel path run with a single chunk covering the whole element
list (start index 0) produces exactly the page boundaries of the sequential
fallback path: the fallback is the reference semantics of the single-chunk
parallel run. -/
theorem singleChunk_eq_fallback :
    ∀ elements : List Element, updatePages elements 1 = fallbackUpdatePages elements :=
  updatePages_one

/-- The outbound throttle of `ySocketProvider.setupYjsListeners`, embedded as
a function over a time-stamped trace of local deltas (times in ms, strictly
in arrival order).  The state is the pending timer (`updateTimeout`):
`some (ft, d)` means a timer scheduled to fire at `ft` will send payload `d`
— the delta that started the window, captured by the `setTimeout` closure.
On a delta at time `t`: if a timer is pending and has not yet fired
(`t < ft`) the delta is dropped (`if (updateTimeout) return`); if the
pending timer already fired (`ft ≤ t`) its send is emitted before the new
delta is handled, and the new delta starts a fresh 200 ms window; with no
pending timer the delta starts the window.  After the trace ends the pending
timer fires and sends.  The socket is assumed to stay connected, as in the
claim's scenario. -/
def runThrottle {α : Type} : Option (ℕ × α) → List (ℕ × α) → List (ℕ × α)
  | none, [] => []
  | some p, [] => [p]
  | none, (t, d) :: rest => runThrottle (some (t + 200, d)) rest
  | some (ft, d0), (t, d) :: rest =>
    if ft ≤ t then (ft, d0) :: runThrottle (some (t + 200, d)) rest
    else runThrottle (some (ft, d0)) rest

/-- The amended window semantics, stated independently of the step function:
the first delta of each window is sent 200 ms later; deltas arriving strictly
inside the window are discarded; the first delta at or after expiry opens the
next window. -/
def throttleSpec {α : Type} : List (ℕ × α) → List (ℕ × α)
  | [] => []
  | (t, d) :: rest =>
    (t + 200, d) :: throttleSpec (rest.dropWhile fun p => p.1 < t + 200)
termination_by l => l.length
decreasing_by
  simp only [List.length_cons]
  exact Nat.lt_succ_of_le (List.dropWhile_sublist _).length_le

/-- A pending timer fires exactly once: its send is emitted, and the deltas
arriving before it fires are discarded. -/
theorem runThrottle_some {α : Type} :
    ∀ (trace : List (ℕ × α)) (ft : ℕ) (d0 : α),
      runThrottle (some (ft, d0)) trace =
        (ft, d0) :: runThrottle none (trace.dropWhile fun p => p.1 < ft) := by
  intro trace
  induction trace with
  | nil =>
    intro ft d0
    rfl
  | cons p rest ih =>
    intro ft d0
    obtain ⟨t, d⟩ := p
    by_cases h : ft ≤ t
    · simp only [runThrottle, if_pos h, List.dropWhile_cons]
      rw [if_neg (by simpa using Nat.not_lt.mpr h)]
      rfl
    · simp only [runThrottle, if_neg h, List.dropWhile_cons]
      rw [if_pos (by simpa using Nat.lt_of_not_le h), ih]

/-- The step function realises the window semantics on every trace. -/
theorem runThrottle_eq_spec {α : Type} (trace : List (ℕ × α)) :
    runThrottle none trace = throttleSpec trace := by
  have H : ∀ (n : ℕ) (tr : List (ℕ × α)), tr.length ≤ n →
      runThrottle none tr = throttleSpec tr := by
    intro n
    induction n with
    | zero =>
      intro tr hle
      have h0 : tr = [] := List.eq_nil_of_length_eq_zero (Nat.le_zero.mp hle)
      subst h0
      rw [throttleSpec]
      rfl
    | succ n ih =>
      intro tr hle
      match tr with
      | [] =>
        rw [throttleSpec]
        rfl
      | (t, d) :: rest =>
        rw [show runThrottle none ((t, d) :: rest) =
            runThrottle (some (t + 200, d)) rest from rfl]
        rw [runThrottle_some, throttleSpec]
        congr 1
        refine ih _ ?_
        have h1 : (rest.dropWhile fun p => p.1 < t + 200).length ≤ rest.length :=
          (List.dropWhile_sublist _).length_le
        simp only [List.length_cons] at hle
        omega
  exact H trace.length trace (Nat.le_refl _)

/-- C4 counterexample: two local deltas arrive inside one 200 ms window; the
single outbound send carries the first delta of the window (the one captured
by the timer's closure), not the latest — later deltas of the window are
dropped, not coalesced. -/
theorem throttleSendsFirst_cex :
    runThrottle (none : Option (ℕ × ℕ)) [(0, 1), (100, 2)] = [(200, 1)] ∧
      (runThrottle (none : Option (ℕ × ℕ)) [(0, 1), (100, 2)]).map Prod.snd ≠ [2] := by
  exact ⟨by decide, by decide⟩

/-- C4 (amended): the first delta in a window starts a 200 ms timer and is
itself the payload sent at expiry; every delta arriving before the timer
fires is dropped; there is exactly one outbound send per window — 5 rapid
deltas inside the window yield exactly one send (carrying the first delta),
and a 6th delta after the window closes yields a second send. -/
theorem throttleFirstDeltaPerWindow :
    (∀ (α : Type) (trace : List (ℕ × α)), runThrottle none trace = throttleSpec trace) ∧
    runThrottle (none : Option (ℕ × ℕ))
      [(0, 1), (50, 2), (100, 3), (150, 4), (199, 5)] = [(200, 1)] ∧
    runThrottle (none : Option (ℕ × ℕ))
      [(0, 1), (50, 2), (100, 3), (150, 4), (199, 5), (250, 6)] =
      [(200, 1), (450, 6)] := by
  exact ⟨fun _ trace => runThrottle_eq_spec trace, by decide, by decide⟩

/-- Client-supplied presence info sent with `join-document`
(`{name, color, ...}` built by `YSocketProvider.joinDocument`). -/
structure UserInfo where
  name : String
  color : String
deriving DecidableEq

/-- Messages the relay emits to individual sockets; delta payloads are
opaque and embedded as natural numbers. -/
inductive Msg where
  | userJoined (sid : ℕ) (userId : String) (info : UserInfo)
  | currentUsers (users : List (ℕ × String × UserInfo))
  | userLeft (sid : ℕ) (userId : Option String)
  | yjsUpd (update : ℕ)
  | awarenessUpd (sid : ℕ) (payload : ℕ)
deriving DecidableEq

/-- The relay's per-process state.  `ioRooms` is socket.io's own room
membership (mutated by `socket.join` and by the automatic leave on
disconnect); `rooms` is the handler's `documentRooms` map (`none` when a key
is absent); `awareness` is `userAwareness` (socket id ↦ the stored
`{userId, ...userInfo}`); `sockDoc` and `sockUser` are the `documentId` and
`userId` fields the join handler stores on the socket object; `connected`
is the set of live sockets. -/
structure RelayState where
  ioRooms : String → Finset ℕ
  rooms : String → Option (Finset ℕ)
  awareness : ℕ → Option (String × UserInfo)
  sockDoc : ℕ → Option String
  sockUser : ℕ → Option String
  connected : Finset ℕ

/-- The state before any connection. -/
def initRelay : RelayState :=
  ⟨fun _ => ∅, fun _ => none, fun _ => none, fun _ => none, fun _ => none, ∅⟩

/-- The `join-document` handler (socket.js): no validation of `documentId`
or `userId`; `socket.join(documentId)`; store `documentId`/`userId` on the
socket; create the `documentRooms` entry if absent and insert the socket id;
store `{userId, ...userInfo}` in `userAwareness`; broadcast `user-joined` to
the io room minus the sender; reply `current-users` listing the other room
members whose stored `userId` is truthy (non-empty). -/
def joinDocument (s : RelayState) (sid : ℕ) (documentId userId : String)
    (userInfo : UserInfo) : RelayState × List (ℕ × Msg) :=
  let ioRooms' : String → Finset ℕ := fun d =>
    if d = documentId then insert sid (s.ioRooms d) else s.ioRooms d
  let roomSet : Finset ℕ := (s.rooms documentId).getD ∅
  let rooms' : String → Option (Finset ℕ) := fun d =>
    if d = documentId then some (insert sid roomSet) else s.rooms d
  let awareness' : ℕ → Option (String × UserInfo) := fun i =>
    if i = sid then some (userId, userInfo) else s.awareness i
  let s' : RelayState :=
    { s with
      ioRooms := ioRooms'
      rooms := rooms'
      awareness := awareness'
      sockDoc := fun i => if i = sid then some documentId else s.sockDoc i
      sockUser := fun i => if i = sid then some userId else s.sockUser i }
  let joinedMsgs : List (ℕ × Msg) :=
    (((ioRooms' documentId).erase sid).sort (· ≤ ·)).map fun r =>
      (r, Msg.userJoined sid userId userInfo)
  let currentUsers : List (ℕ × String × UserInfo) :=
    ((((rooms' documentId).getD ∅).erase sid).sort (· ≤ ·)).filterMap fun i =>
      match s'.awareness i with
      | some (uid, info) => if uid = "" then none else some (i, uid, info)
      | none => none
  (s', joinedMsgs ++ [(sid, Msg.currentUsers currentUsers)])

/-- The `yjs-update` handler:
`socket.to(documentId).emit('yjs-update', { update })` — every socket in the
io room named by the payload's `documentId` except the sender receives the
opaque update; the sender's own join state is never consulted. -/
def yjsUpdateHandler (s : RelayState) (sid : ℕ) (documentId : String)
    (update : ℕ) : List (ℕ × Msg) :=
  (((s.ioRooms documentId).erase sid).sort (· ≤ ·)).map fun r =>
    (r, Msg.yjsUpd update)

/-- The `awareness-update` handler: broadcast to the io room named by the
payload minus the sender, tagged with the sender's socket id. -/
def awarenessUpdateHandler (s : RelayState) (sid : ℕ) (documentId : String)
    (payload : ℕ) : List (ℕ × Msg) :=
  (((s.ioRooms documentId).erase sid).sort (· ≤ ·)).map fun r =>
    (r, Msg.awarenessUpd sid payload)

/-- The `disconnect` handler plus socket.io's automatic room leave: if the
socket had a stored `documentId`, remove it from that document's room in
`documentRooms` and delete the entry when the set becomes empty, then emit
`user-left` to the io room minus the sender; always delete the
`userAwareness` entry; the socket leaves `connected` and every io room. -/
def disconnectSock (s : RelayState) (sid : ℕ) : RelayState × List (ℕ × Msg) :=
  match s.sockDoc sid with
  | some d =>
      let rooms' : String → Option (Finset ℕ) := fun d' =>
        if d' = d then
          match s.rooms d with
          | some S => if S.erase sid = ∅ then none else some (S.erase sid)
          | none => none
        else s.rooms d'
      let msgs : List (ℕ × Msg) :=
        (((s.ioRooms d).erase sid).sort (· ≤ ·)).map fun r =>
          (r, Msg.userLeft sid (s.sockUser sid))
      ({ s with
          rooms := rooms'
          awareness := fun i => if i = sid then none else s.awareness i
          connected := s.connected.erase sid
          ioRooms := fun d' => (s.ioRooms d').erase sid }, msgs)
  | none =>
      ({ s with
          awareness := fun i => if i = sid then none else s.awareness i
          connected := s.connected.erase sid
          ioRooms := fun d' => (s.ioRooms d').erase sid }, [])

/-- The relay events that touch the room registry. -/
inductive REvent where
  | connect (sid : ℕ)
  | join (sid : ℕ) (documentId userId : String) (info : UserInfo)
  | disconnect (sid : ℕ)

/-- State transition of the relay for one event. -/
def applyEvent (s : RelayState) : REvent → RelayState
  | REvent.connect sid => { s with connected := insert sid s.connected }
  | REvent.join sid d u i => (joinDocument s sid d u i).1
  | REvent.disconnect sid => (disconnectSock s sid).1

/-- Well-formed events: socket ids are fresh on connect and never reused;
only connected sockets send; a joined socket re-joins only the same document
(re-joining a different document without leaving first is declared a caller
error / undefined behavior). -/
def WFEvent (s : RelayState) : REvent → Prop
  | REvent.connect sid => sid ∉ s.connected ∧ s.sockDoc sid = none
  | REvent.join sid d _ _ =>
      sid ∈ s.connected ∧ (s.sockDoc sid = none ∨ s.sockDoc sid = some d)
  | REvent.disconnect sid => sid ∈ s.connected

/-- Relay states reachable from the initial state by well-formed events. -/
inductive Reach : RelayState → Prop
  | init : Reach initRelay
  | step {s : RelayState} {e : REvent} :
      Reach s → WFEvent s e → Reach (applyEvent s e)

/-- Room-registry invariant: every room entry is a non-empty set of
connected sockets whose stored document is that room's key, and every
connected socket with a stored document is in that document's room. -/
def RoomInv (s : RelayState) : Prop :=
  (∀ d S, s.rooms d = some S →
    S.Nonempty ∧ ∀ x ∈ S, x ∈ s.connected ∧ s.sockDoc x = some d) ∧
  (∀ x ∈ s.connected, ∀ d, s.sockDoc x = some d →
    ∃ S, s.rooms d = some S ∧ x ∈ S)

/-- Every reachable relay state satisfies the room-registry invariant. -/
theorem reach_roomInv {s : RelayState} (hs : Reach s) : RoomInv s := by
  induction hs with
  | init =>
    refine ⟨?_, ?_⟩
    · intro d S h
      simp [initRelay] at h
    · intro x hx
      simp [initRelay] at hx
  | @step t e hr hwf ih =>
    obtain ⟨ihA, ihB⟩ := ih
    cases e with
    | connect sid =>
      obtain ⟨hfresh, hdocnone⟩ := hwf
      refine ⟨?_, ?_⟩
      · intro d S h
        simp only [applyEvent] at h ⊢
        obtain ⟨hne, hmem⟩ := ihA d S h
        exact ⟨hne, fun x hx =>
          ⟨Finset.mem_insert_of_mem (hmem x hx).1, (hmem x hx).2⟩⟩
      · intro x hx d hd
        simp only [applyEvent] at hx hd ⊢
        rcases Finset.mem_insert.mp hx with rfl | hx'
        · rw [hdocnone] at hd
          cases hd
        · exact ihB x hx' d hd
    | join sid docId uid info =>
      obtain ⟨hconn, hdoc⟩ := hwf
      have hriff : ∀ d, ((joinDocument t sid docId uid info).1).rooms d =
          if d = docId then some (insert sid ((t.rooms docId).getD ∅))
          else t.rooms d := fun d => rfl
      have hdiff : ∀ i, ((joinDocument t sid docId uid info).1).sockDoc i =
          if i = sid then some docId else t.sockDoc i := fun i => rfl
      have hciff : ((joinDocument t sid docId uid info).1).connected =
          t.connected := rfl
      refine ⟨?_, ?_⟩
      · intro d S h
        simp only [applyEvent] at h ⊢
        rw [hriff d] at h
        by_cases hd : d = docId
        · subst hd
          rw [if_pos rfl] at h
          injection h with h
          subst h
          refine ⟨Finset.insert_nonempty _ _, ?_⟩
          intro x hx
          rw [hciff, hdiff x]
          rcases Finset.mem_insert.mp hx with rfl | hx'
          · exact ⟨hconn, by rw [if_pos rfl]⟩
          · cases hS0 : t.rooms d with
            | none =>
              rw [hS0] at hx'
              simp at hx'
            | some S0 =>
              rw [hS0] at hx'
              simp only [Option.getD_some] at hx'
              obtain ⟨hxc, hxdoc⟩ := (ihA d S0 hS0).2 x hx'
              refine ⟨hxc, ?_⟩
              by_cases hxs : x = sid
              · rw [if_pos hxs]
              · rw [if_neg hxs]
                exact hxdoc
        · rw [if_neg hd] at h
          obtain ⟨hne, hmem⟩ := ihA d S h
          refine ⟨hne, fun x hx => ?_⟩
          obtain ⟨hxc, hxdoc⟩ := hmem x hx
          rw [hciff, hdiff x]
          refine ⟨hxc, ?_⟩
          by_cases hxs : x = sid
          · subst hxs
            exfalso
            rcases hdoc with h0 | h0 <;> rw [h0] at hxdoc
            · cases hxdoc
            · injection hxdoc with h2
              exact hd h2.symm
          · rw [if_neg hxs]
            exact hxdoc
      · intro x hx d hd
        simp only [applyEvent] at hx hd ⊢
        rw [hciff] at hx
        rw [hdiff x] at hd
        rw [hriff d]
        by_cases hxs : x = sid
        · subst hxs
          rw [if_pos rfl] at hd
          injection hd with hd
          subst hd
          rw [if_pos rfl]
          exact ⟨_, rfl, Finset.mem_insert_self _ _⟩
        · rw [if_neg hxs] at hd
          obtain ⟨S, hS, hxS⟩ := ihB x hx d hd
          by_cases hdd : d = docId
          · subst hdd
            rw [if_pos rfl, hS]
            exact ⟨_, rfl, Finset.mem_insert_of_mem (by simpa using hxS)⟩
          · rw [if_neg hdd]
            exact ⟨S, hS, hxS⟩
    | disconnect sid =>
      have hconn : sid ∈ t.connected := hwf
      cases hm : t.sockDoc sid with
      | none =>
        have hstate : applyEvent t (REvent.disconnect sid) =
            { t with
              awareness := fun i => if i = sid then none else t.awareness i,
              connected := t.connected.erase sid,
              ioRooms := fun d' => (t.ioRooms d').erase sid } := by
          simp only [applyEvent, disconnectSock, hm]
        refine ⟨?_, ?_⟩
        · intro d S h
          rw [hstate] at h ⊢
          obtain ⟨hne, hmem⟩ := ihA d S h
          refine ⟨hne, fun x hx => ?_⟩
          obtain ⟨hxc, hxdoc⟩ := hmem x hx
          have hxs : x ≠ sid := by
            intro h0
            rw [h0, hm] at hxdoc
            cases hxdoc
          exact ⟨Finset.mem_erase.mpr ⟨hxs, hxc⟩, hxdoc⟩
        · intro x hx d hd
          rw [hstate] at hx hd ⊢
          obtain ⟨hxs, hxc⟩ := Finset.mem_erase.mp hx
          exact ihB x hxc d hd
      | some d0 =>
        have hstate : applyEvent t (REvent.disconnect sid) =
            { t with
              rooms := fun d' =>
                if d' = d0 then
                  match t.rooms d0 with
                  | some S => if S.erase sid = ∅ then none else some (S.erase sid)
                  | none => none
                else t.rooms d',
              awareness := fun i => if i = sid then none else t.awareness i,
              connected := t.connected.erase sid,
              ioRooms := fun d' => (t.ioRooms d').erase sid } := by
          simp only [applyEvent, disconnectSock, hm]
        refine ⟨?_, ?_⟩
        · intro d S h
          rw [hstate] at h ⊢
          simp only at h
          by_cases hd : d = d0
          · subst hd
            rw [if_pos rfl] at h
            cases hS0 : t.rooms d with
            | none =>
              rw [hS0] at h
              cases h
            | some S0 =>
              rw [hS0] at h
              replace h : (if S0.erase sid = ∅ then none
                  else some (S0.erase sid)) = some S := h
              by_cases hemp : S0.erase sid = ∅
              · rw [if_pos hemp] at h
                cases h
              · rw [if_neg hemp] at h
                injection h with h
                subst h
                refine ⟨Finset.nonempty_iff_ne_empty.mpr hemp, ?_⟩
                intro x hx
                obtain ⟨hxs, hxS⟩ := Finset.mem_erase.mp hx
                obtain ⟨hxc, hxdoc⟩ := (ihA d S0 hS0).2 x hxS
                exact ⟨Finset.mem_erase.mpr ⟨hxs, hxc⟩, hxdoc⟩
          · rw [if_neg hd] at h
            obtain ⟨hne, hmem⟩ := ihA d S h
            refine ⟨hne, fun x hx => ?_⟩
            obtain ⟨hxc, hxdoc⟩ := hmem x hx
            have hxs : x ≠ sid := by
              intro h0
              rw [h0, hm] at hxdoc
              injection hxdoc with h1
              exact hd h1.symm
            exact ⟨Finset.mem_erase.mpr ⟨hxs, hxc⟩, hxdoc⟩
        · intro x hx d hd
          rw [hstate] at hx hd ⊢
          obtain ⟨hxs, hxc⟩ := Finset.mem_erase.mp hx
          obtain ⟨S, hS, hxS⟩ := ihB x hxc d hd
          simp only
          by_cases hdd : d = d0
          · subst hdd
            rw [if_pos rfl, hS]
            have hxS' : x ∈ S.erase sid := Finset.mem_erase.mpr ⟨hxs, hxS⟩
            have hemp : S.erase sid ≠ ∅ := by
              intro h0
              rw [h0] at hxS'
              simp at hxS'
            refine ⟨S.erase sid, ?_, hxS'⟩
            show (if S.erase sid = ∅ then none
              else some (S.erase sid)) = some (S.erase sid)
            rw [if_neg hemp]
          · rw [if_neg hdd]
            exact ⟨S, hS, hxS⟩

/-- C9: after every well-formed sequence of join-document and disconnect
events, the room map has an entry for a document iff some connected session
has that document as its joined document; and disconnecting the last
session of a room deletes the room's entry. -/
theorem roomExistsIffOccupied :
    ∀ s : RelayState, Reach s →
      (∀ d : String, (∃ S, s.rooms d = some S) ↔
        ∃ sid ∈ s.connected, s.sockDoc sid = some d) ∧
      (∀ (sid : ℕ) (d : String), s.rooms d = some {sid} →
        ((disconnectSock s sid).1).rooms d = none) := by
  intro s hs
  obtain ⟨hA, hB⟩ := reach_roomInv hs
  constructor
  · intro d
    constructor
    · rintro ⟨S, hS⟩
      obtain ⟨⟨x, hx⟩, hmem⟩ := hA d S hS
      exact ⟨x, (hmem x hx).1, (hmem x hx).2⟩
    · rintro ⟨x, hxc, hxd⟩
      obtain ⟨S, hS, _⟩ := hB x hxc d hxd
      exact ⟨S, hS⟩
  · intro sid d hroom
    have hdoc : s.sockDoc sid = some d :=
      ((hA d {sid} hroom).2 sid (Finset.mem_singleton_self sid)).2
    show ((disconnectSock s sid).1).rooms d = none
    unfold disconnectSock
    rw [hdoc]
    show (if d = d then
        match s.rooms d with
        | some S => if S.erase sid = ∅ then none else some (S.erase sid)
        | none => none
      else s.rooms d) = none
    rw [if_pos rfl, hroom]
    show (if ({sid} : Finset ℕ).erase sid = ∅ then none
      else some (({sid} : Finset ℕ).erase sid)) = none
    rw [Finset.erase_singleton sid]
    rfl

/-- The concrete state after `connect 1` and `join 1 "doc1" "alice"`. -/
def relayTraceState : RelayState :=
  applyEvent (applyEvent initRelay (REvent.connect 1))
    (REvent.join 1 "doc1" "alice" ⟨"alice", "#FF6B6B"⟩)

theorem roomExistsIffOccupied_witness :
    ((∃ S, relayTraceState.rooms "doc1" = some S) ↔
      ∃ sid ∈ relayTraceState.connected, relayTraceState.sockDoc sid = some "doc1") ∧
    relayTraceState.rooms "doc1" = some {1} ∧
    ((disconnectSock relayTraceState 1).1).rooms "doc1" = none := by
  have hw1 : WFEvent initRelay (REvent.connect 1) := ⟨by decide, rfl⟩
  have hw2 : WFEvent (applyEvent initRelay (REvent.connect 1))
      (REvent.join 1 "doc1" "alice" ⟨"alice", "#FF6B6B"⟩) :=
    ⟨by decide, Or.inl rfl⟩
  have hreach : Reach relayTraceState :=
    Reach.step (Reach.step Reach.init hw1) hw2
  have hroom : relayTraceState.rooms "doc1" = some {1} := by decide
  exact ⟨(roomExistsIffOccupied relayTraceState hreach).1 "doc1", hroom,
    (roomExistsIffOccupied relayTraceState hreach).2 1 "doc1" hroom⟩

/-- The presence info used in the validation counterexample. -/
def uA : UserInfo := ⟨"alice", "#FF6B6B"⟩

/-- Presence info of a joiner with an empty user id. -/
def uB : UserInfo := ⟨"", "#4ECDC4"⟩

/-- C5 counterexample: the relay does not validate `join-document`.  After
socket 1 joins "doc1", a join by socket 2 with an empty `userId` is
processed like any other: the room registry is mutated (socket 2 becomes a
member), `user-joined` is broadcast to socket 1, and a `current-users`
reply is sent to socket 2; likewise a join with an empty `documentId`
creates and populates a room under the empty key. -/
theorem joinNoValidation_cex :
    (2 ∈ ((joinDocument (joinDocument initRelay 1 "doc1" "alice" uA).1
        2 "doc1" "" uB).1.rooms "doc1").getD ∅) ∧
    ((1, Msg.userJoined 2 "" uB) ∈
      (joinDocument (joinDocument initRelay 1 "doc1" "alice" uA).1
        2 "doc1" "" uB).2) ∧
    ((2, Msg.currentUsers [(1, "alice", uA)]) ∈
      (joinDocument (joinDocument initRelay 1 "doc1" "alice" uA).1
        2 "doc1" "" uB).2) ∧
    (1 ∈ ((joinDocument initRelay 1 "" "alice" uA).1.rooms "").getD ∅) := by
  refine ⟨by decide, by with_unfolding_all decide, by with_unfolding_all decide, by decide⟩

/-- C5 (amended): the `join-document` handler performs no validation of
`documentId` or `userId`: every join — including one with empty
identifiers — inserts the sender into the named room (creating the entry if
absent), sends `user-joined` to every other io-room member, and replies
`current-users` to the sender (the snapshot omits sessions whose stored
userId is empty). -/
theorem joinNoValidation :
    ∀ (s : RelayState) (sid : ℕ) (documentId userId : String) (info : UserInfo),
      sid ∈ ((joinDocument s sid documentId userId info).1.rooms documentId).getD ∅ ∧
      ((joinDocument s sid documentId userId info).1.rooms documentId).isSome ∧
      (∃ users, (sid, Msg.currentUsers users) ∈
        (joinDocument s sid documentId userId info).2) ∧
      ∀ r ∈ ((joinDocument s sid documentId userId info).1.ioRooms documentId).erase sid,
        (r, Msg.userJoined sid userId info) ∈
          (joinDocument s sid documentId userId info).2 := by
  intro s sid documentId userId info
  refine ⟨?_, ?_, ?_, ?_⟩
  · show sid ∈ ((if documentId = documentId then
        some (insert sid ((s.rooms documentId).getD ∅))
      else s.rooms documentId).getD ∅)
    rw [if_pos rfl]
    simp
  · show (if documentId = documentId then
        some (insert sid ((s.rooms documentId).getD ∅))
      else s.rooms documentId).isSome = true
    rw [if_pos rfl]
    rfl
  · exact ⟨_, List.mem_append_right _ (List.mem_singleton_self _)⟩
  · intro r hr
    refine List.mem_append_left _ ?_
    refine List.mem_map.mpr ⟨r, ?_, rfl⟩
    rw [Finset.mem_sort]
    exact hr

theorem joinNoValidation_witness :
    1 ∈ ((joinDocument initRelay 1 "" "" uB).1.rooms "").getD ∅ ∧
      ((joinDocument initRelay 1 "" "" uB).1.rooms "").isSome ∧
      (∃ users, (1, Msg.currentUsers users) ∈ (joinDocument initRelay 1 "" "" uB).2) ∧
      ∀ r ∈ ((joinDocument initRelay 1 "" "" uB).1.ioRooms "").erase 1,
        (r, Msg.userJoined 1 "" uB) ∈ (joinDocument initRelay 1 "" "" uB).2 :=
  joinNoValidation initRelay 1 "" "" uB

/-- C10: for every incoming `yjs-update` or `awareness-update`, the relay
broadcasts to the io room named by the `documentId` carried in the payload,
excluding exactly the sender; the recipient set is characterised without any
reference to the sender's own join state, so a session that never joined —
or that names a room other than the one it joined — still causes the
broadcast into the named room (`awareness-update` additionally tags the
sender's socket id). -/
theorem relayBroadcastsWithoutMembershipCheck :
    ∀ (s : RelayState) (sid : ℕ) (documentId : String) (u a r : ℕ),
      ((r, Msg.yjsUpd u) ∈ yjsUpdateHandler s sid documentId u ↔
        r ∈ s.ioRooms documentId ∧ r ≠ sid) ∧
      ((r, Msg.awarenessUpd sid a) ∈ awarenessUpdateHandler s sid documentId a ↔
        r ∈ s.ioRooms documentId ∧ r ≠ sid) := by
  intro s sid documentId u a r
  constructor
  · unfold yjsUpdateHandler
    rw [List.mem_map]
    constructor
    · rintro ⟨x, hx, hxe⟩
      rw [Finset.mem_sort, Finset.mem_erase] at hx
      cases hxe
      exact ⟨hx.2, hx.1⟩
    · rintro ⟨hmem, hne⟩
      exact ⟨r, by rw [Finset.mem_sort, Finset.mem_erase]; exact ⟨hne, hmem⟩, rfl⟩
  · unfold awarenessUpdateHandler
    rw [List.mem_map]
    constructor
    · rintro ⟨x, hx, hxe⟩
      rw [Finset.mem_sort, Finset.mem_erase] at hx
      cases hxe
      exact ⟨hx.2, hx.1⟩
    · rintro ⟨hmem, hne⟩
      exact ⟨r, by rw [Finset.mem_sort, Finset.mem_erase]; exact ⟨hne, hmem⟩, rfl⟩

end Mvp
